import Mathlib

/-!
Shallow embedding of the repository context-config, file
src/context_config/context_config.py, class IntervalConfig.

The interval index (the intervaltree library used by the source) is a set of
half-open intervals, each a triple of begin, end and an opaque payload.  It is
modelled here as a list of such triples; the set never holds two equal triples
and all theorems that depend on it carry the pairwise-disjointness invariant
the source maintains.  Sorting an interval set (the Python calls to sorted)
compares the triples lexicographically, so the payload type carries a linear
order.  Raised Python exceptions are modelled as Option.none.
-/

namespace ContextConfig

/-- An interval of the index: the half-open range from lo (inclusive, the
field named begin in the source) to hi (exclusive, the field named end in the
source) carrying the payload data. -/
structure Ivl (α : Type) where
  lo : Int
  hi : Int
  data : α
deriving DecidableEq, Repr

/-- The interval index backing an IntervalConfig, the field named tree in
the source. -/
abbrev Tree (α : Type) := List (Ivl α)

variable {α : Type} [LinearOrder α]

/-- Lexicographic comparison of the triples (begin, end, data); this is the
order Python uses when the source calls sorted on intervals. -/
def ivLE (x y : Ivl α) : Prop :=
  x.lo < y.lo ∨ (x.lo = y.lo ∧ (x.hi < y.hi ∨ (x.hi = y.hi ∧ x.data ≤ y.data)))

instance : DecidableRel (ivLE (α := α)) := fun x y => by
  unfold ivLE; infer_instance

instance : IsTotal (Ivl α) ivLE where
  total x y := by
    rcases le_total x.data y.data with h | h
    · rcases lt_trichotomy x.lo y.lo with h1 | h1 | h1
      · exact Or.inl (Or.inl h1)
      · rcases lt_trichotomy x.hi y.hi with h2 | h2 | h2
        · exact Or.inl (Or.inr ⟨h1, Or.inl h2⟩)
        · exact Or.inl (Or.inr ⟨h1, Or.inr ⟨h2, h⟩⟩)
        · exact Or.inr (Or.inr ⟨h1.symm, Or.inl h2⟩)
      · exact Or.inr (Or.inl h1)
    · rcases lt_trichotomy x.lo y.lo with h1 | h1 | h1
      · exact Or.inl (Or.inl h1)
      · rcases lt_trichotomy x.hi y.hi with h2 | h2 | h2
        · exact Or.inl (Or.inr ⟨h1, Or.inl h2⟩)
        · exact Or.inr (Or.inr ⟨h1.symm, Or.inr ⟨h2.symm, h⟩⟩)
        · exact Or.inr (Or.inr ⟨h1.symm, Or.inl h2⟩)
      · exact Or.inr (Or.inl h1)

instance : IsTrans (Ivl α) ivLE where
  trans x y z hxy hyz := by
    unfold ivLE at *
    rcases hxy with h1 | ⟨e1, h1⟩ <;> rcases hyz with h2 | ⟨e2, h2⟩
    · exact Or.inl (h1.trans h2)
    · exact Or.inl (e2 ▸ h1)
    · exact Or.inl (e1 ▸ h2)
    · refine Or.inr ⟨e1.trans e2, ?_⟩
      rcases h1 with h1 | ⟨f1, h1⟩ <;> rcases h2 with h2 | ⟨f2, h2⟩
      · exact Or.inl (h1.trans h2)
      · exact Or.inl (f2 ▸ h1)
      · exact Or.inl (f1 ▸ h2)
      · exact Or.inr ⟨f1.trans f2, h1.trans h2⟩

instance : IsAntisymm (Ivl α) ivLE where
  antisymm x y hxy hyx := by
    unfold ivLE at *
    obtain ⟨xl, xh, xd⟩ := x
    obtain ⟨yl, yh, yd⟩ := y
    simp only [Ivl.mk.injEq]
    dsimp at hxy hyx
    rcases hxy with h1 | ⟨e1, h1⟩ <;> rcases hyx with h2 | ⟨e2, h2⟩ <;>
      [skip; (exact absurd (e2 ▸ h1) (lt_irrefl _));
       (exact absurd (e1 ▸ h2) (lt_irrefl _)); skip]
    · exact absurd (h1.trans h2) (lt_irrefl _)
    · refine ⟨e1, ?_, ?_⟩
      · rcases h1 with h1 | ⟨f1, h1⟩ <;> rcases h2 with h2 | ⟨f2, h2⟩ <;> omega
      · rcases h1 with h1 | ⟨f1, h1⟩ <;> rcases h2 with h2 | ⟨f2, h2⟩ <;>
          first
          | omega
          | exact le_antisymm h1 h2

/-- Membership of a point in a half-open interval, as the intervaltree at
query tests it: lo is less than or equal to p and p is less than hi. -/
def memP (p : Int) (iv : Ivl α) : Prop := iv.lo ≤ p ∧ p < iv.hi

instance (p : Int) (iv : Ivl α) : Decidable (memP p iv) := by
  unfold memP; infer_instance

/-- The intervals of the index containing the point p, the intervaltree
method named at in the source. -/
def atP (t : Tree α) (p : Int) : Tree α :=
  t.filter (fun iv => decide (memP p iv))

/-- An interval overlaps the half-open window from b to e, as the
intervaltree overlap query tests it. -/
def overlapsW (b e : Int) (iv : Ivl α) : Prop := iv.lo < e ∧ b < iv.hi

instance (b e : Int) (iv : Ivl α) : Decidable (overlapsW b e iv) := by
  unfold overlapsW; infer_instance

/-- The intervals of the index overlapping the window from b to e, the
intervaltree overlap query used by the source. -/
def overlapFilter (t : Tree α) (b e : Int) : Tree α :=
  t.filter (fun iv => decide (overlapsW b e iv))

/-- What the intervaltree chop operation keeps of one interval when the
window from b to e is chopped out: the interval untouched when it does not
overlap the window, otherwise the part left of b and the part right of e,
each kept only when nonempty. -/
def chopIv (b e : Int) (iv : Ivl α) : Tree α :=
  if overlapsW b e iv then
    (if iv.lo < b then [⟨iv.lo, b, iv.data⟩] else []) ++
    (if e < iv.hi then [⟨e, iv.hi, iv.data⟩] else [])
  else [iv]

/-- The intervaltree chop operation: remove from every stored interval its
overlap with the window from b to e, splitting at the boundaries.  Faithful
for b less than e, the only regime the source exercises (the library rejects
an empty window). -/
def chop (t : Tree α) (b e : Int) : Tree α :=
  t.flatMap (chopIv b e)

/-- IntervalConfig.set_interval: chop out the window, then add one interval
covering the whole window with the new value. -/
def set_interval (t : Tree α) (b e : Int) (v : α) : Tree α :=
  ⟨b, e, v⟩ :: chop t b e

/-- IntervalConfig.value: sort the intervals containing the point and return
the payload of the first, none when no interval covers the point (the source
raises KeyError there). -/
def value (t : Tree α) (p : Int) : Option α :=
  match List.insertionSort ivLE (atP t p) with
  | [] => none
  | iv :: _ => some iv.data

/-- IntervalConfig.values_at: point query at each index in turn; the whole
query fails when any single point query fails. -/
def values_at (t : Tree α) (l : List Int) : Option (List α) :=
  l.mapM (value t)

/-- IntervalConfig.overlap: the intervals overlapping the window, sorted,
each clipped to the window. -/
def overlap (t : Tree α) (b e : Int) : Tree α :=
  (List.insertionSort ivLE (overlapFilter t b e)).map
    (fun iv => ⟨max iv.lo b, min iv.hi e, iv.data⟩)

/-- IntervalConfig.overlap_content: sort the intervals overlapping the
window; when exactly one overlaps return its payload alone, otherwise the
list of payloads in sorted order. -/
def overlap_content (t : Tree α) (b e : Int) : Sum α (List α) :=
  match List.insertionSort ivLE (overlapFilter t b e) with
  | [h] => Sum.inl h.data
  | hs => Sum.inr (hs.map Ivl.data)

/-- Pairwise disjointness of the stored intervals: the invariant the spec
states for the index after paint operations. -/
def IvDisj (a b : Ivl α) : Prop := a.hi ≤ b.lo ∨ b.hi ≤ a.lo

instance (a b : Ivl α) : Decidable (IvDisj a b) := by
  unfold IvDisj; infer_instance

/-- The index invariant: the stored intervals are pairwise non-overlapping. -/
def Disj (t : Tree α) : Prop := t.Pairwise IvDisj

instance (t : Tree α) : Decidable (Disj t) := by
  unfold Disj; exact List.instDecidablePairwise t


/-! The label encoding.  Strings are modelled as lists of characters. -/

/-- Decimal rendering of a natural number with explicit fuel; the callers
always supply enough fuel for the recursion on n / 10 to bottom out. -/
def natStrAux (fuel n : Nat) : List Char :=
  match fuel with
  | 0 => [Nat.digitChar n]
  | f + 1 =>
    if n < 10 then [Nat.digitChar n]
    else natStrAux f (n / 10) ++ [Nat.digitChar (n % 10)]

/-- Decimal rendering of a natural number, most significant digit first: the
embedding of Python str on a nonnegative int. -/
def natStr (n : Nat) : List Char := natStrAux n n

/-- Decimal rendering of an integer, the embedding of Python str: a minus
sign followed by the digits when negative. -/
def intStr (i : Int) : List Char :=
  if i < 0 then '-' :: natStr i.natAbs else natStr i.toNat

/-- IntervalConfig.key_to_label: the f-string rendering begin-end. -/
def key_to_label (b e : Int) : List Char := intStr b ++ '-' :: intStr e

/-- A decimal digit character parsed to its value. -/
def parseDigit (c : Char) : Option Nat :=
  if 48 ≤ c.toNat ∧ c.toNat ≤ 57 then some (c.toNat - 48) else none

def parseNatGo (acc : Nat) : List Char → Option Nat
  | [] => some acc
  | c :: cs => (parseDigit c).bind (fun d => parseNatGo (acc * 10 + d) cs)

/-- The embedding of Python int() on the pieces a label is split into.  Such
a piece never contains a minus sign, so int() succeeds exactly on the
nonempty all-digit pieces, yielding a nonnegative value; everything else
raises ValueError, modelled as none. -/
def parseNat (l : List Char) : Option Nat :=
  if l.isEmpty then none else parseNatGo 0 l

/-- The embedding of Python str.split on a one-character separator: the
pieces between separator occurrences, empty pieces included. -/
def splitOnChar (sep : Char) : List Char → List (List Char)
  | [] => [[]]
  | c :: cs =>
    match splitOnChar sep cs with
    | [] => [[]]
    | part :: parts =>
      if c = sep then [] :: part :: parts else (c :: part) :: parts

/-- IntervalConfig.label_to_key: split the label at every minus sign and
parse each piece with int(); the tuple of all results, none when any piece
fails to parse (the source raises ValueError there). -/
def label_to_key (s : List Char) : Option (List Int) :=
  ((splitOnChar '-' s).mapM parseNat).map (List.map Int.ofNat)

/-! The remaining IntervalConfig operations. -/

/-- IntervalTree.begin: the smallest stored begin, 0 for an empty index. -/
def tree_begin (t : Tree α) : Int := ((t.map Ivl.lo).min?).getD 0

/-- IntervalTree.end: the largest stored end, 0 for an empty index. -/
def tree_end (t : Tree α) : Int := ((t.map Ivl.hi).max?).getD 0

/-- IntervalConfig.configure with a two-element key and no step: missing
bounds are resolved from the index, then the window is painted with
set_interval.  A window whose start is not below its stop makes the
underlying library raise ValueError, modelled as none. -/
def configure_paint (t : Tree α) (start stop : Option Int) (v : α) :
    Option (Tree α) :=
  let s := start.getD (tree_begin t)
  let e := stop.getD (tree_end t)
  if s < e then some (set_interval t s e v) else none

def pyRangeAux (stop step : Int) : Nat → Int → List Int
  | 0, _ => []
  | f + 1, cur =>
    if cur < stop then cur :: pyRangeAux stop step f (cur + step) else []

/-- The embedding of Python range(start, stop, step) for a positive step:
start, start + step, and so on while below stop.  The fuel stop - start is
enough because each emitted element raises cur by at least one. -/
def pyRange (start stop step : Int) : List Int :=
  pyRangeAux stop step (stop - start).toNat start

/-- The body of the stepped-assignment loop: paint each window of the zipped
list with its value, left to right. -/
def paintList (t : Tree α) (ws : List ((Int × Int) × α)) : Tree α :=
  ws.foldl (fun acc wv => set_interval acc wv.1.1 wv.1.2 wv.2) t

/-- The consecutive sub-windows the stepped assignment paints: the zip of
the index list dropping its last element with the index list dropping its
first. -/
def stepped_windows (s e st : Int) : List (Int × Int) :=
  (pyRange s e st).dropLast.zip (pyRange s e st).tail

/-- The pairs of consecutive grid points of an index list, written
recursively; stepped_windows is proved equal to this shape below. -/
def winds : List Int → List (Int × Int)
  | a :: b :: rest => (a, b) :: winds (b :: rest)
  | _ => []

/-- IntervalConfig.configure with a three-element key (start, stop, step):
build list(range(start, stop, step)), then paint each consecutive pair of
indices with the matching element of the value sequence; the zip of the
source truncates to the shortest of its arguments.  Nonpositive steps
(ValueError for step 0 in the source, descending index lists otherwise) lie
outside every claim and are modelled as a failure. -/
def configure_stepped (t : Tree α) (start stop : Option Int) (step : Int)
    (vs : List α) : Option (Tree α) :=
  let s := start.getD (tree_begin t)
  let e := stop.getD (tree_end t)
  if 0 < step then some (paintList t ((stepped_windows s e step).zip vs))
  else none

/-- The key shapes IntervalConfig.delete dispatches on. -/
inductive DelKey where
  | label (s : List Char)
  | pair (b e : Int)
  | slice (b e : Int)
deriving DecidableEq, Repr

/-- IntervalConfig.delete.  A string key is decoded with label_to_key and
then, because every following branch is an elif of the string test, nothing
further happens: the index is returned unchanged.  A two-element tuple chops
the window.  A slice reads the attribute named end, which Python slices do
not have, so that branch always raises AttributeError, modelled as none. -/
def delete (t : Tree α) (k : DelKey) : Option (Tree α) :=
  match k with
  | DelKey.label s => (label_to_key s).map (fun _ => t)
  | DelKey.pair b e => some (chop t b e)
  | DelKey.slice _ _ => none

/-- IntervalConfig getstate: the sorted sequence of stored triples. -/
def getstate (t : Tree α) : Tree α := List.insertionSort ivLE t

/-- IntervalConfig setstate: rebuild the index from the stored triples. -/
def setstate (s : Tree α) : Tree α := s

/-- The key shapes IntervalConfig.lookup dispatches on, a slice apart. -/
inductive LKey where
  | point (i : Int)
  | pair (b e : Int)
  | points (l : List Int)
  | label (s : List Char)
deriving DecidableEq, Repr

/-- A lookup result: either one bare value or a sequence of values. -/
inductive LRes (α : Type) where
  | val (a : α)
  | seq (l : List α)
deriving DecidableEq, Repr

/-- IntervalConfig.lookup: a string key is decoded to its tuple first; an
int key is a point query; a two-element tuple is a range-overlap query with
the single-hit unwrap of overlap_content; any other iterable is a pointwise
query.  A decoded label tuple re-enters the same dispatch. -/
def lookup (t : Tree α) : LKey → Option (LRes α)
  | LKey.point i => (value t i).map LRes.val
  | LKey.pair b e =>
    some (match overlap_content t b e with
      | Sum.inl a => LRes.val a
      | Sum.inr l => LRes.seq l)
  | LKey.points l => (values_at t l).map LRes.seq
  | LKey.label s =>
    (label_to_key s).bind fun ks =>
      match ks with
      | [b, e] =>
        some (match overlap_content t b e with
          | Sum.inl a => LRes.val a
          | Sum.inr l => LRes.seq l)
      | l => (values_at t l).map LRes.seq

/-- IntervalConfig contains, which is bool of the item access: for an int
key the item access is a point query, so a point covered by no interval
propagates the KeyError (none here) and a covered point returns the Python
truthiness of the stored value. -/
def contains_point (truthy : α → Bool) (t : Tree α) (i : Int) : Option Bool :=
  (value t i).map truthy

/-- Python truthiness of an int. -/
def intTruthy (v : Int) : Bool := v != 0

/-! Lemmas. -/

@[simp] lemma Ivl.lo_mk (a b : Int) (d : α) : (Ivl.mk a b d).lo = a := rfl

@[simp] lemma Ivl.hi_mk (a b : Int) (d : α) : (Ivl.mk a b d).hi = b := rfl

@[simp] lemma Ivl.data_mk (a b : Int) (d : α) : (Ivl.mk a b d).data = d := rfl

lemma sort_singleton (a : Ivl α) : List.insertionSort ivLE [a] = [a] := rfl

/-- The survivors of chopping the window out of one interval, described
explicitly. -/
lemma mem_chopIv_iff {b e : Int} {iv j : Ivl α} :
    j ∈ chopIv b e iv ↔
      (¬ overlapsW b e iv ∧ j = iv) ∨
      (overlapsW b e iv ∧ iv.lo < b ∧ j = ⟨iv.lo, b, iv.data⟩) ∨
      (overlapsW b e iv ∧ e < iv.hi ∧ j = ⟨e, iv.hi, iv.data⟩) := by
  unfold chopIv
  split_ifs with h1 h2 h3 <;> simp_all <;> tauto

lemma value_of_atP_nil {t : Tree α} {p : Int} (h : atP t p = []) : value t p = none := by
  unfold value; rw [h]; rfl

lemma value_of_atP_single {t : Tree α} {p : Int} {iv : Ivl α} (h : atP t p = [iv]) :
    value t p = some iv.data := by
  unfold value; rw [h, sort_singleton]

/-- Under the disjointness invariant at most one stored interval contains any
given point. -/
lemma disj_atP {t : Tree α} (hd : Disj t) (p : Int) :
    atP t p = [] ∨ ∃ iv, atP t p = [iv] := by
  induction t with
  | nil => exact Or.inl rfl
  | cons a t ih =>
    unfold Disj at hd
    rw [List.pairwise_cons] at hd
    obtain ⟨ha, ht⟩ := hd
    unfold atP at *
    rw [List.filter_cons]
    by_cases hm : memP p a
    · rw [if_pos (by simpa using hm)]
      right
      refine ⟨a, ?_⟩
      have : t.filter (fun iv => decide (memP p iv)) = [] := by
        rw [List.filter_eq_nil_iff]
        intro b hb
        have := ha b hb
        simp only [decide_eq_true_eq]
        unfold IvDisj at this
        unfold memP at hm ⊢
        omega
      rw [this]
    · rw [if_neg (by simpa using hm)]
      exact ih ht

lemma value_eq_headmap {t : Tree α} {p : Int}
    (h : atP t p = [] ∨ ∃ iv, atP t p = [iv]) :
    value t p = ((atP t p).map Ivl.data).head? := by
  rcases h with h | ⟨iv, h⟩
  · rw [value_of_atP_nil h, h]; rfl
  · rw [value_of_atP_single h, h]; rfl

lemma mem_chopIv_bounds {b e : Int} {iv j : Ivl α} (h : j ∈ chopIv b e iv) :
    iv.lo ≤ j.lo ∧ j.hi ≤ iv.hi ∧ j.data = iv.data := by
  rcases mem_chopIv_iff.mp h with ⟨h1, rfl⟩ | ⟨h1, h2, rfl⟩ | ⟨h1, h2, rfl⟩
  · exact ⟨le_refl _, le_refl _, rfl⟩
  · exact ⟨le_refl _, le_of_lt (show b < iv.hi by unfold overlapsW at h1; omega), rfl⟩
  · exact ⟨le_of_lt (show iv.lo < e by unfold overlapsW at h1; omega), le_refl _, rfl⟩

/-- Every interval surviving a chop lies entirely outside the chopped
window. -/
lemma mem_chopIv_noov {b e : Int} {iv j : Ivl α} (h : j ∈ chopIv b e iv) :
    j.hi ≤ b ∨ e ≤ j.lo := by
  rcases mem_chopIv_iff.mp h with ⟨h1, rfl⟩ | ⟨h1, h2, rfl⟩ | ⟨h1, h2, rfl⟩
  · unfold overlapsW at h1; omega
  · exact Or.inl (le_refl _)
  · exact Or.inr (le_refl _)

lemma mem_chop {t : Tree α} {b e : Int} {j : Ivl α} (h : j ∈ chop t b e) :
    ∃ iv ∈ t, j ∈ chopIv b e iv :=
  List.mem_flatMap.mp h

lemma pairwise_chopIv (b e : Int) (hbe : b ≤ e) (iv : Ivl α) :
    (chopIv b e iv).Pairwise IvDisj := by
  unfold chopIv
  split_ifs with h1 h2 h3 <;>
    simp_all [List.pairwise_cons, IvDisj] <;> omega

lemma chop_disj {t : Tree α} (hd : Disj t) {b e : Int} (hbe : b ≤ e) :
    Disj (chop t b e) := by
  induction t with
  | nil => exact List.Pairwise.nil
  | cons a t ih =>
    unfold Disj at hd
    rw [List.pairwise_cons] at hd
    obtain ⟨ha, ht⟩ := hd
    show ((chopIv b e a) ++ chop t b e).Pairwise IvDisj
    rw [List.pairwise_append]
    refine ⟨pairwise_chopIv b e hbe a, ih ht, ?_⟩
    intro x hx y hy
    obtain ⟨iv, hiv, hyiv⟩ := mem_chop hy
    have hbx := mem_chopIv_bounds hx
    have hby := mem_chopIv_bounds hyiv
    have := ha iv hiv
    unfold IvDisj at this ⊢
    omega

lemma mem_chop_noov {t : Tree α} {b e : Int} {j : Ivl α} (h : j ∈ chop t b e) :
    j.hi ≤ b ∨ e ≤ j.lo := by
  obtain ⟨iv, _, hj⟩ := mem_chop h
  exact mem_chopIv_noov hj

/-- Painting a window preserves the pairwise non-overlap invariant. -/
lemma set_interval_disj {t : Tree α} (hd : Disj t) {b e : Int} (hbe : b ≤ e)
    (v : α) : Disj (set_interval t b e v) := by
  unfold set_interval Disj
  rw [List.pairwise_cons]
  refine ⟨?_, chop_disj hd hbe⟩
  intro j hj
  rcases mem_chop_noov hj with h | h
  · exact Or.inr h
  · exact Or.inl h

/-- After a chop, no interval covers any point inside the chopped window. -/
lemma atP_chop_inside {t : Tree α} {b e p : Int} (h1 : b ≤ p) (h2 : p < e) :
    atP (chop t b e) p = [] := by
  unfold atP
  rw [List.filter_eq_nil_iff]
  intro j hj
  have := mem_chop_noov hj
  simp only [decide_eq_true_eq]
  unfold memP
  omega

/-- A point query inside a freshly painted window returns the painted
value. -/
lemma value_set_interval_inside {t : Tree α} {b e p : Int} (v : α)
    (h1 : b ≤ p) (h2 : p < e) : value (set_interval t b e v) p = some v := by
  have : atP (set_interval t b e v) p = [⟨b, e, v⟩] := by
    unfold set_interval atP
    rw [List.filter_cons, if_pos (by simp [memP]; omega)]
    have := atP_chop_inside (t := t) h1 h2
    unfold atP at this
    rw [this]
  exact value_of_atP_single this

lemma atP_chopIv_outside {b e p : Int} (hp : p < b ∨ e ≤ p) (hbe : b ≤ e)
    (iv : Ivl α) :
    ((chopIv b e iv).filter (fun j => decide (memP p j))).map Ivl.data =
      if memP p iv then [iv.data] else [] := by
  by_cases hov : overlapsW b e iv
  · have hov' := hov
    unfold overlapsW at hov'
    rw [show chopIv b e iv =
        (if iv.lo < b then [(⟨iv.lo, b, iv.data⟩ : Ivl α)] else []) ++
        (if e < iv.hi then [(⟨e, iv.hi, iv.data⟩ : Ivl α)] else []) from by
      unfold chopIv; rw [if_pos hov]]
    rw [List.filter_append, List.map_append]
    rcases hp with hp | hp
    · have hright :
          ((if e < iv.hi then [(⟨e, iv.hi, iv.data⟩ : Ivl α)] else []).filter
            (fun j => decide (memP p j))).map Ivl.data = [] := by
        split_ifs with h3
        · rw [List.filter_cons,
            if_neg (by simp only [decide_eq_true_eq]; unfold memP; simp; omega)]
          rfl
        · rfl
      rw [hright]
      by_cases hm : memP p iv
      · have hm' := hm
        unfold memP at hm'
        have hlo : iv.lo < b := by omega
        rw [if_pos hm, if_pos hlo]
        rw [List.filter_cons,
          if_pos (by simp only [decide_eq_true_eq]; unfold memP; simp; omega)]
        rfl
      · have hm' : ¬ (iv.lo ≤ p ∧ p < iv.hi) := by unfold memP at hm; exact hm
        rw [if_neg hm]
        split_ifs with h3
        · rw [List.filter_cons,
            if_neg (by simp only [decide_eq_true_eq]; unfold memP; simp; omega)]
          rfl
        · rfl
    · have hleft :
          ((if iv.lo < b then [(⟨iv.lo, b, iv.data⟩ : Ivl α)] else []).filter
            (fun j => decide (memP p j))).map Ivl.data = [] := by
        split_ifs with h3
        · rw [List.filter_cons,
            if_neg (by simp only [decide_eq_true_eq]; unfold memP; simp; omega)]
          rfl
        · rfl
      rw [hleft]
      by_cases hm : memP p iv
      · have hm' := hm
        unfold memP at hm'
        have hhi : e < iv.hi := by omega
        rw [if_pos hm, if_pos hhi]
        rw [List.filter_cons,
          if_pos (by simp only [decide_eq_true_eq]; unfold memP; simp; omega)]
        rfl
      · have hm' : ¬ (iv.lo ≤ p ∧ p < iv.hi) := by unfold memP at hm; exact hm
        rw [if_neg hm]
        split_ifs with h3
        · rw [List.filter_cons,
            if_neg (by simp only [decide_eq_true_eq]; unfold memP; simp; omega)]
          rfl
        · rfl
  · have hov' := hov
    unfold overlapsW at hov'
    rw [show chopIv b e iv = [iv] from by unfold chopIv; rw [if_neg hov]]
    by_cases hm : memP p iv
    · rw [if_pos hm, List.filter_cons, if_pos (by simpa using hm)]
      rfl
    · rw [if_neg hm, List.filter_cons, if_neg (by simpa using hm)]
      rfl

/-- Outside the painted window a chop does not change which payloads cover a
point. -/
lemma atP_chop_outside {t : Tree α} {b e p : Int} (hp : p < b ∨ e ≤ p)
    (hbe : b ≤ e) :
    (atP (chop t b e) p).map Ivl.data = (atP t p).map Ivl.data := by
  induction t with
  | nil => rfl
  | cons a t ih =>
    show (atP (chopIv b e a ++ chop t b e) p).map Ivl.data = _
    unfold atP at *
    rw [List.filter_append, List.map_append, ih, List.filter_cons]
    rw [atP_chopIv_outside hp hbe a]
    by_cases hm : memP p a
    · rw [if_pos hm, if_pos (by simpa using hm)]
      rfl
    · rw [if_neg hm, if_neg (by simpa using hm)]
      rfl

/-- A point query outside a chopped window is unchanged by the chop, given
the disjointness invariant. -/
lemma value_chop_outside {t : Tree α} (hd : Disj t) {b e p : Int}
    (hbe : b ≤ e) (hp : p < b ∨ e ≤ p) :
    value (chop t b e) p = value t p := by
  have hmap := atP_chop_outside (t := t) hp hbe
  have h1 := value_eq_headmap (disj_atP (chop_disj hd hbe) p)
  have h2 := value_eq_headmap (disj_atP hd p)
  rw [h1, h2, hmap]

/-- A point query outside a painted window is unchanged by the paint, given
the disjointness invariant. -/
lemma value_set_interval_outside {t : Tree α} (hd : Disj t) {b e p : Int}
    (hbe : b ≤ e) (hp : p < b ∨ e ≤ p) (v : α) :
    value (set_interval t b e v) p = value t p := by
  have hat : atP (set_interval t b e v) p = atP (chop t b e) p := by
    unfold set_interval atP
    rw [List.filter_cons, if_neg (by simp [memP]; omega)]
  rw [show value (set_interval t b e v) p = value (chop t b e) p from by
    unfold value; rw [hat]]
  exact value_chop_outside hd hbe hp

/-- A point query only depends on the set of stored intervals: permuting the
index leaves every answer unchanged, because the hits are sorted before the
first is taken. -/
lemma value_perm {t t' : Tree α} (h : t.Perm t') (p : Int) :
    value t p = value t' p := by
  unfold value
  have hp : (List.insertionSort ivLE (atP t p)).Perm
      (List.insertionSort ivLE (atP t' p)) :=
    ((List.perm_insertionSort ivLE (atP t p)).trans (h.filter _)).trans
      (List.perm_insertionSort ivLE (atP t' p)).symm
  rw [List.eq_of_perm_of_sorted hp (List.sorted_insertionSort ivLE (atP t p))
    (List.sorted_insertionSort ivLE (atP t' p))]

/-! Lemmas on the decimal rendering and parsing of labels. -/

lemma parseDigit_digitChar {d : Nat} (hd : d < 10) :
    parseDigit (Nat.digitChar d) = some d := by
  interval_cases d <;> decide

lemma digitChar_ne_dash {d : Nat} (hd : d < 10) : Nat.digitChar d ≠ '-' := by
  interval_cases d <;> decide

lemma natStrAux_ne_dash :
    ∀ (fuel n : Nat), n ≤ fuel ∨ n < 10 → ∀ c ∈ natStrAux fuel n, c ≠ '-' := by
  intro fuel
  induction fuel with
  | zero =>
    intro n h c hc
    have hn : n < 10 := by omega
    unfold natStrAux at hc
    simp only [List.mem_singleton] at hc
    subst hc
    exact digitChar_ne_dash hn
  | succ f ih =>
    intro n h c hc
    unfold natStrAux at hc
    split_ifs at hc with h10
    · simp only [List.mem_singleton] at hc
      subst hc
      exact digitChar_ne_dash h10
    · rcases List.mem_append.mp hc with hc | hc
      · exact ih (n / 10) (by omega) c hc
      · simp only [List.mem_singleton] at hc
        subst hc
        exact digitChar_ne_dash (Nat.mod_lt n (by norm_num))

lemma natStrAux_ne_nil (fuel n : Nat) : natStrAux fuel n ≠ [] := by
  unfold natStrAux
  cases fuel with
  | zero => simp
  | succ f => split_ifs <;> simp

lemma parseNatGo_append (acc : Nat) (xs ys : List Char) :
    parseNatGo acc (xs ++ ys) =
      (parseNatGo acc xs).bind (fun a => parseNatGo a ys) := by
  induction xs generalizing acc with
  | nil => rfl
  | cons c cs ih =>
    show (parseDigit c).bind (fun d => parseNatGo (acc * 10 + d) (cs ++ ys)) =
      ((parseDigit c).bind (fun d => parseNatGo (acc * 10 + d) cs)).bind
        (fun a => parseNatGo a ys)
    rcases h : parseDigit c with _ | d
    · rfl
    · show parseNatGo (acc * 10 + d) (cs ++ ys) = _
      exact ih (acc * 10 + d)

lemma parseNatGo_natStrAux :
    ∀ (fuel n acc : Nat), n ≤ fuel ∨ n < 10 →
      parseNatGo acc (natStrAux fuel n) =
        some (acc * 10 ^ (natStrAux fuel n).length + n) := by
  intro fuel
  induction fuel with
  | zero =>
    intro n acc h
    have hn : n < 10 := by omega
    show parseNatGo acc [Nat.digitChar n] = some (acc * 10 ^ 1 + n)
    unfold parseNatGo
    rw [parseDigit_digitChar hn]
    show some (acc * 10 + n) = some (acc * 10 ^ 1 + n)
    norm_num
  | succ f ih =>
    intro n acc h
    unfold natStrAux
    split_ifs with h10
    · show parseNatGo acc [Nat.digitChar n] = some (acc * 10 ^ 1 + n)
      unfold parseNatGo
      rw [parseDigit_digitChar h10]
      show some (acc * 10 + n) = some (acc * 10 ^ 1 + n)
      norm_num
    · rw [parseNatGo_append]
      rw [ih (n / 10) acc (by omega)]
      show parseNatGo (acc * 10 ^ (natStrAux f (n / 10)).length + n / 10)
          [Nat.digitChar (n % 10)] = _
      unfold parseNatGo
      rw [parseDigit_digitChar (Nat.mod_lt n (by norm_num))]
      show some ((acc * 10 ^ (natStrAux f (n / 10)).length + n / 10) * 10 + n % 10)
        = _
      rw [List.length_append, List.length_singleton, pow_succ]
      have hdm : n / 10 * 10 + n % 10 = n := by omega
      congr 1
      calc (acc * 10 ^ (natStrAux f (n / 10)).length + n / 10) * 10 + n % 10
          = acc * (10 ^ (natStrAux f (n / 10)).length * 10) +
              (n / 10 * 10 + n % 10) := by ring
        _ = acc * (10 ^ (natStrAux f (n / 10)).length * 10) + n := by rw [hdm]

lemma parseNat_natStr (n : Nat) : parseNat (natStr n) = some n := by
  unfold parseNat natStr
  rw [if_neg (by simpa using natStrAux_ne_nil n n)]
  rw [parseNatGo_natStrAux n n 0 (Or.inl (le_refl n))]
  norm_num

lemma natStr_ne_dash (n : Nat) : ∀ c ∈ natStr n, c ≠ '-' :=
  natStrAux_ne_dash n n (Or.inl (le_refl n))

lemma splitOnChar_cons (sep c : Char) (cs : List Char) :
    splitOnChar sep (c :: cs) =
      match splitOnChar sep cs with
      | [] => [[]]
      | part :: parts =>
        if c = sep then [] :: part :: parts else (c :: part) :: parts := rfl

lemma splitOnChar_ne_nil (sep : Char) (l : List Char) :
    splitOnChar sep l ≠ [] := by
  cases l with
  | nil => simp [splitOnChar]
  | cons c cs =>
    unfold splitOnChar
    rcases h : splitOnChar sep cs with _ | ⟨part, parts⟩
    · simp
    · split_ifs <;> simp

lemma splitOnChar_no_sep (sep : Char) (xs : List Char)
    (h : ∀ c ∈ xs, c ≠ sep) : splitOnChar sep xs = [xs] := by
  induction xs with
  | nil => rfl
  | cons c cs ih =>
    have hr := ih (fun d hd => h d (List.mem_cons_of_mem c hd))
    rw [splitOnChar_cons, hr]
    show (if c = sep then [] :: cs :: [] else (c :: cs) :: []) = [c :: cs]
    rw [if_neg (h c (List.mem_cons_self c cs))]

lemma splitOnChar_append (sep : Char) (xs ys : List Char)
    (h : ∀ c ∈ xs, c ≠ sep) :
    splitOnChar sep (xs ++ sep :: ys) = xs :: splitOnChar sep ys := by
  induction xs with
  | nil =>
    show splitOnChar sep (sep :: ys) = [] :: splitOnChar sep ys
    rw [splitOnChar_cons]
    rcases hs : splitOnChar sep ys with _ | ⟨part, parts⟩
    · exact absurd hs (splitOnChar_ne_nil sep ys)
    · show (if sep = sep then [] :: part :: parts
        else (sep :: part) :: parts) = [] :: part :: parts
      rw [if_pos rfl]
  | cons c cs ih =>
    have hr := ih (fun d hd => h d (List.mem_cons_of_mem c hd))
    show splitOnChar sep (c :: (cs ++ sep :: ys)) = _
    rw [splitOnChar_cons, hr]
    show (if c = sep then [] :: cs :: splitOnChar sep ys
      else (c :: cs) :: splitOnChar sep ys) = (c :: cs) :: splitOnChar sep ys
    rw [if_neg (h c (List.mem_cons_self c cs))]

/-! Lemmas on the stepped assignment: the grid, its windows, and the fold
that paints them. -/

lemma winds_eq : ∀ g : List Int, g.dropLast.zip g.tail = winds g
  | [] => rfl
  | [_] => rfl
  | a :: b :: r => by
    show ((a :: b :: r).dropLast).zip (b :: r) = (a, b) :: winds (b :: r)
    rw [← winds_eq (b :: r)]
    rfl

lemma winds_lt : ∀ {g : List Int}, List.Chain' (· < ·) g →
    ∀ w ∈ winds g, w.1 < w.2
  | [], _, w, hw => absurd hw (List.not_mem_nil w)
  | [_], _, w, hw => absurd hw (List.not_mem_nil w)
  | _ :: _ :: _, hg, w, hw => by
    rw [List.chain'_cons] at hg
    rcases List.mem_cons.mp hw with rfl | hw
    · exact hg.1
    · exact winds_lt hg.2 w hw

lemma winds_lo_ge : ∀ {a : Int} {g : List Int}, List.Chain' (· < ·) (a :: g) →
    ∀ w ∈ winds (a :: g), a ≤ w.1
  | _, [], _, w, hw => absurd hw (List.not_mem_nil w)
  | a, b :: r, hg, w, hw => by
    rw [List.chain'_cons] at hg
    rcases List.mem_cons.mp hw with rfl | hw
    · exact le_refl a
    · exact le_of_lt (lt_of_lt_of_le hg.1 (winds_lo_ge hg.2 w hw))

lemma head_le_getLast : ∀ {b : Int} {r : List Int} {z : Int},
    List.Chain' (· < ·) (b :: r) → (b :: r).getLast? = some z → b ≤ z
  | b, [], z, _, hz => by
    simp at hz
    omega
  | b, c :: r, z, hg, hz => by
    rw [List.chain'_cons] at hg
    have hcz : c ≤ z :=
      head_le_getLast hg.2 (by rw [← List.getLast?_cons_cons]; exact hz)
    omega

lemma winds_hi_le : ∀ {g : List Int} {z : Int}, List.Chain' (· < ·) g →
    g.getLast? = some z → ∀ w ∈ winds g, w.2 ≤ z
  | [], _, _, _, w, hw => absurd hw (List.not_mem_nil w)
  | [_], _, _, _, w, hw => absurd hw (List.not_mem_nil w)
  | _ :: b :: r, z, hg, hz, w, hw => by
    rw [List.chain'_cons] at hg
    have hz' : (b :: r).getLast? = some z := by
      rw [← List.getLast?_cons_cons]
      exact hz
    rcases List.mem_cons.mp hw with rfl | hw
    · exact head_le_getLast hg.2 hz'
    · exact winds_hi_le hg.2 hz' w hw

lemma winds_pairwise : ∀ {g : List Int}, List.Chain' (· < ·) g →
    (winds g).Pairwise (fun w1 w2 => w1.2 ≤ w2.1)
  | [], _ => List.Pairwise.nil
  | [_], _ => List.Pairwise.nil
  | a :: b :: r, hg => by
    rw [List.chain'_cons] at hg
    show ((a, b) :: winds (b :: r)).Pairwise _
    rw [List.pairwise_cons]
    exact ⟨fun w hw => winds_lo_ge hg.2 w hw, winds_pairwise hg.2⟩

lemma pairwise_zip_left {β γ : Type} {R : β → β → Prop} :
    ∀ {l : List β} {l' : List γ}, l.Pairwise R →
      (l.zip l').Pairwise (fun x y => R x.1 y.1)
  | [], _, _ => by simp
  | _ :: _, [], _ => by simp
  | a :: l, b :: l', h => by
    rw [List.pairwise_cons] at h
    show ((a, b) :: l.zip l').Pairwise _
    rw [List.pairwise_cons]
    refine ⟨?_, pairwise_zip_left h.2⟩
    rintro ⟨x1, x2⟩ hx
    exact h.1 x1 (List.of_mem_zip hx).1

lemma zip_take_len {β γ : Type} :
    ∀ (l : List β) (l' : List γ), l.zip l' = l.zip (l'.take l.length)
  | [], _ => rfl
  | _ :: _, [] => rfl
  | a :: l, b :: l' => by
    show (a, b) :: l.zip l' = (a, b) :: l.zip (l'.take l.length)
    rw [zip_take_len l l']

lemma paintList_append (t : Tree α) (l1 l2 : List ((Int × Int) × α)) :
    paintList t (l1 ++ l2) = paintList (paintList t l1) l2 := by
  unfold paintList
  rw [List.foldl_append]

lemma paintList_disj (W : List ((Int × Int) × α)) : ∀ (t : Tree α), Disj t →
    (∀ w ∈ W, w.1.1 ≤ w.1.2) → Disj (paintList t W) := by
  induction W with
  | nil =>
    intro t hd _
    exact hd
  | cons w W ih =>
    intro t hd hle
    show Disj (paintList (set_interval t w.1.1 w.1.2 w.2) W)
    exact ih _ (set_interval_disj hd (hle w (List.mem_cons_self w W)) w.2)
      (fun w' hw' => hle w' (List.mem_cons_of_mem _ hw'))

/-- Painting a list of windows leaves every point outside all of them with
its previous answer. -/
lemma paintList_frame (W : List ((Int × Int) × α)) : ∀ (t : Tree α) (p : Int),
    Disj t → (∀ w ∈ W, w.1.1 ≤ w.1.2) → (∀ w ∈ W, p < w.1.1 ∨ w.1.2 ≤ p) →
    value (paintList t W) p = value t p := by
  induction W with
  | nil =>
    intro t p _ _ _
    rfl
  | cons w W ih =>
    intro t p hd hle hout
    show value (paintList (set_interval t w.1.1 w.1.2 w.2) W) p = value t p
    rw [ih _ p (set_interval_disj hd (hle w (List.mem_cons_self w W)) w.2)
      (fun w' hw' => hle w' (List.mem_cons_of_mem _ hw'))
      (fun w' hw' => hout w' (List.mem_cons_of_mem _ hw'))]
    exact value_set_interval_outside hd (hle w (List.mem_cons_self w W))
      (hout w (List.mem_cons_self w W)) w.2

lemma pyRangeAux_mem {stop step : Int} (hstep : 1 ≤ step) :
    ∀ (f : Nat) (cur x : Int), x ∈ pyRangeAux stop step f cur →
      cur ≤ x ∧ x < stop := by
  intro f
  induction f with
  | zero =>
    intro cur x hx
    exact absurd hx (List.not_mem_nil x)
  | succ f ih =>
    intro cur x hx
    unfold pyRangeAux at hx
    split_ifs at hx with hc
    · rcases List.mem_cons.mp hx with rfl | hx
      · exact ⟨le_refl x, hc⟩
      · have := ih (cur + step) x hx
        omega
    · exact absurd hx (List.not_mem_nil x)

lemma pyRangeAux_head (stop step : Int) :
    ∀ (f : Nat) (cur : Int), pyRangeAux stop step f cur = [] ∨
      (pyRangeAux stop step f cur).head? = some cur := by
  intro f cur
  cases f with
  | zero => exact Or.inl rfl
  | succ f =>
    show (if cur < stop then cur :: pyRangeAux stop step f (cur + step)
        else []) = [] ∨
      (if cur < stop then cur :: pyRangeAux stop step f (cur + step)
        else []).head? = some cur
    split_ifs with hc
    · exact Or.inr rfl
    · exact Or.inl rfl

lemma pyRangeAux_chain {stop step : Int} (hstep : 1 ≤ step) :
    ∀ (f : Nat) (cur : Int),
      List.Chain' (· < ·) (pyRangeAux stop step f cur) := by
  intro f
  induction f with
  | zero =>
    intro cur
    exact List.chain'_nil
  | succ f ih =>
    intro cur
    show List.Chain' (· < ·)
      (if cur < stop then cur :: pyRangeAux stop step f (cur + step) else [])
    split_ifs with hc
    · rw [List.chain'_cons']
      refine ⟨?_, ih (cur + step)⟩
      intro y hy
      rcases pyRangeAux_head stop step f (cur + step) with h | h
      · rw [h] at hy
        simp at hy
      · rw [h] at hy
        simp at hy
        omega
    · exact List.chain'_nil

lemma pyRange_chain {s e st : Int} (hst : 1 ≤ st) :
    List.Chain' (· < ·) (pyRange s e st) :=
  pyRangeAux_chain hst _ _

lemma pyRange_mem {s e st : Int} (hst : 1 ≤ st) {x : Int}
    (hx : x ∈ pyRange s e st) : s ≤ x ∧ x < e :=
  pyRangeAux_mem hst _ _ x hx

lemma pyRange_head (s e st : Int) :
    pyRange s e st = [] ∨ (pyRange s e st).head? = some s :=
  pyRangeAux_head e st _ s

lemma pyRange_ne_nil {s e st : Int} (hse : s < e) : pyRange s e st ≠ [] := by
  unfold pyRange
  rcases hf : (e - s).toNat with _ | f
  · exfalso
    omega
  · show (if s < e then s :: pyRangeAux e st f (s + st) else []) ≠ []
    rw [if_pos hse]
    simp

/-- The last grid point of a nonempty positive-step range lies strictly
below the requested stop: the painted windows never reach stop. -/
lemma pyRange_getLastD_lt {s e st : Int} (hst : 1 ≤ st) (hse : s < e) :
    (pyRange s e st).getLastD s < e := by
  rcases hl : (pyRange s e st).getLast? with _ | z
  · rw [List.getLast?_eq_none_iff] at hl
    exact absurd hl (pyRange_ne_nil hse)
  · have hz : z ∈ pyRange s e st := by
      obtain ⟨h, hzz⟩ :=
        List.mem_getLast?_eq_getLast (Option.mem_def.mpr hl)
      rw [hzz]
      exact List.getLast_mem h
    rw [List.getLastD_eq_getLast?, hl, Option.getD_some]
    exact (pyRange_mem hst hz).2

lemma lookup_pair (t : Tree α) (b e : Int) :
    lookup t (LKey.pair b e) =
      some (match overlap_content t b e with
        | Sum.inl a => LRes.val a
        | Sum.inr l => LRes.seq l) := rfl

/-! The claims. -/

/-- C1: painting a window through configure with a (start, stop) key and no
step chops the window out of every existing interval, splitting at the
boundaries, and inserts the single interval carrying the new value, so that
afterwards every point query inside the window answers the new value and
every point query outside answers exactly what it answered before; in
particular painting 0 to 10 with x and then 3 to 7 with y answers x on 0..2
and on 7..9 and y on 3..6. -/
theorem paint_overwrite (t : Tree α) (hd : Disj t) (s e : Int) (hse : s < e)
    (v : α) (p : Int) :
    configure_paint t (some s) (some e) v = some (set_interval t s e v) ∧
    (s ≤ p → p < e → value (set_interval t s e v) p = some v) ∧
    ((p < s ∨ e ≤ p) → value (set_interval t s e v) p = value t p) ∧
    (∀ (x y : α) (q : Int),
      ((0 ≤ q ∧ q ≤ 2) ∨ (7 ≤ q ∧ q ≤ 9) →
        value (set_interval (set_interval ([] : Tree α) 0 10 x) 3 7 y) q =
          some x) ∧
      (3 ≤ q ∧ q ≤ 6 →
        value (set_interval (set_interval ([] : Tree α) 0 10 x) 3 7 y) q =
          some y)) := by
  refine ⟨?_, ?_, ?_, ?_⟩
  · show (if s < e then some (set_interval t s e v) else none) =
      some (set_interval t s e v)
    rw [if_pos hse]
  · intro h1 h2
    exact value_set_interval_inside v h1 h2
  · intro hp
    exact value_set_interval_outside hd (le_of_lt hse) hp v
  · intro x y q
    have hd1 : Disj (set_interval ([] : Tree α) 0 10 x) :=
      set_interval_disj List.Pairwise.nil (by norm_num) x
    constructor
    · intro hq
      rw [value_set_interval_outside hd1 (by norm_num) (by omega) y]
      exact value_set_interval_inside x (by omega) (by omega)
    · intro hq
      exact value_set_interval_inside y (by omega) (by omega)

/-- Witness for C1: the spec example with x = 1 and y = 2, evaluated at the
points 5 and 0. -/
theorem paint_overwrite_witness :
    value (set_interval (set_interval ([] : Tree Int) 0 10 1) 3 7 2) 5 =
      some 2 ∧
    value (set_interval (set_interval ([] : Tree Int) 0 10 1) 3 7 2) 0 =
      some 1 := by
  have h := paint_overwrite ([] : Tree Int) (by decide) 3 7 (by decide) 2 5
  exact ⟨(h.2.2.2 1 2 5).2 (by decide), (h.2.2.2 1 2 0).1 (by decide)⟩

/-- C7: a paint preserves the non-overlap invariant: painting any window
with start below stop on a pairwise non-overlapping index leaves the stored
intervals, the freshly painted one included, pairwise non-overlapping. -/
theorem paint_disjoint (t : Tree α) (hd : Disj t) (s e : Int) (hse : s < e)
    (v : α) : Disj (set_interval t s e v) :=
  set_interval_disj hd (le_of_lt hse) v

/-- Witness for C7. -/
theorem paint_disjoint_witness :
    Disj (set_interval [(⟨0, 10, 1⟩ : Ivl Int)] 3 7 2) :=
  paint_disjoint [(⟨0, 10, 1⟩ : Ivl Int)] (by decide) 3 7 (by decide) 2

/-- C6: delete with a (begin, end) key chops exactly the requested window:
every point inside the window loses its coverage, any partially overlapping
interval is split so that every point outside keeps its previous answer, and
no replacement is inserted; in particular after painting 0 to 10 with x and
deleting the window 3 to 7 the point query at 5 fails while the queries on
0..2 and 7..9 still answer x. -/
theorem delete_gap (t : Tree α) (hd : Disj t) (b e : Int) (hbe : b < e)
    (p : Int) :
    delete t (DelKey.pair b e) = some (chop t b e) ∧
    (b ≤ p → p < e → value (chop t b e) p = none) ∧
    ((p < b ∨ e ≤ p) → value (chop t b e) p = value t p) ∧
    (∀ (x : α) (q : Int),
      value (chop (set_interval ([] : Tree α) 0 10 x) 3 7) 5 = none ∧
      ((0 ≤ q ∧ q ≤ 2) ∨ (7 ≤ q ∧ q ≤ 9) →
        value (chop (set_interval ([] : Tree α) 0 10 x) 3 7) q = some x)) := by
  refine ⟨rfl, ?_, ?_, ?_⟩
  · intro h1 h2
    exact value_of_atP_nil (atP_chop_inside h1 h2)
  · intro hp
    exact value_chop_outside hd (le_of_lt hbe) hp
  · intro x q
    have hd1 : Disj (set_interval ([] : Tree α) 0 10 x) :=
      set_interval_disj List.Pairwise.nil (by norm_num) x
    constructor
    · exact value_of_atP_nil (atP_chop_inside (by norm_num) (by norm_num))
    · intro hq
      rw [value_chop_outside hd1 (by norm_num) (by omega)]
      exact value_set_interval_inside x (by omega) (by omega)

/-- Witness for C6: the spec example with x = 1, evaluated at 5 and 9. -/
theorem delete_gap_witness :
    value (chop (set_interval ([] : Tree Int) 0 10 1) 3 7) 5 = none ∧
    value (chop (set_interval ([] : Tree Int) 0 10 1) 3 7) 9 = some 1 :=
  ⟨((delete_gap ([] : Tree Int) (by decide) 3 7 (by decide) 0).2.2.2 1 9).1,
   ((delete_gap ([] : Tree Int) (by decide) 3 7 (by decide) 0).2.2.2 1 9).2
     (by decide)⟩

/-- C10: delete with a well-formed string label key decodes the label and
then, the remaining branches being elifs of the string test, does nothing:
no error is raised and the index is returned unchanged. -/
theorem delete_label_noop (t : Tree α) (s : List Char) (ks : List Int)
    (h : label_to_key s = some ks) : delete t (DelKey.label s) = some t := by
  show (label_to_key s).map (fun _ => t) = some t
  rw [h]
  rfl

/-- Witness for C10 on the label 3-7. -/
theorem delete_label_noop_witness :
    delete [(⟨0, 10, 1⟩ : Ivl Int)] (DelKey.label ['3', '-', '7']) =
      some [(⟨0, 10, 1⟩ : Ivl Int)] :=
  delete_label_noop _ _ [3, 7] (by decide)

/-- Counterexample to C4: with begin = -1 and end = 1 (a valid pair, begin
below end) the encoded label is -1-1; decoding splits at every minus sign,
the first piece is empty, int() raises, and the round trip does not return
the original pair. -/
theorem label_roundtrip_negative_fails :
    label_to_key (key_to_label (-1) 1) = none ∧
    ¬ label_to_key (key_to_label (-1) 1) = some [-1, 1] := by decide

/-- C4 amended: the label round trip holds for the pairs with a nonnegative
begin: for 0 ≤ begin < end, decoding the encoded begin-end label returns
exactly the original pair. -/
theorem label_roundtrip_nonneg (b e : Int) (hb : 0 ≤ b) (hbe : b < e) :
    label_to_key (key_to_label b e) = some [b, e] := by
  have he : ¬ e < 0 := by omega
  have hb' : ¬ b < 0 := by omega
  have hkey : key_to_label b e = natStr b.toNat ++ '-' :: natStr e.toNat := by
    unfold key_to_label intStr
    rw [if_neg hb', if_neg he]
  unfold label_to_key
  rw [hkey, splitOnChar_append '-' _ _ (natStr_ne_dash b.toNat),
    splitOnChar_no_sep '-' _ (natStr_ne_dash e.toNat)]
  rw [show ([natStr b.toNat, natStr e.toNat].mapM parseNat) =
      some [b.toNat, e.toNat] from by
    rw [List.mapM_cons, parseNat_natStr, List.mapM_cons, parseNat_natStr,
      List.mapM_nil]
    rfl]
  show some [Int.ofNat b.toNat, Int.ofNat e.toNat] = some [b, e]
  rw [show Int.ofNat b.toNat = b from Int.toNat_of_nonneg hb,
    show Int.ofNat e.toNat = e from Int.toNat_of_nonneg (by omega)]

/-- Witness for the amended C4 at the pair (3, 7). -/
theorem label_roundtrip_nonneg_witness :
    label_to_key (key_to_label 3 7) = some [3, 7] :=
  label_roundtrip_nonneg 3 7 (by decide) (by decide)

/-- Counterexample to C8: on an empty config the containment test at the
uncovered point 5 propagates the KeyError of the point query (none here)
instead of returning False. -/
theorem contains_missing_point_errors :
    contains_point intTruthy ([] : Tree Int) 5 = none ∧
    ¬ contains_point intTruthy ([] : Tree Int) 5 = some false := by decide

/-- C8 amended: for a point key the containment test is the Python
truthiness of the point query: it fails exactly when lookup fails (a point
covered by no interval raises instead of answering False), and on a covered
point it answers the truthiness of the stored value, which is False for a
falsy stored value even though lookup succeeds. -/
theorem contains_truthiness (truthy : α → Bool) (t : Tree α) (i : Int) :
    (value t i = none → contains_point truthy t i = none) ∧
    (∀ v, value t i = some v → contains_point truthy t i = some (truthy v)) ∧
    (lookup t (LKey.point i) = none ↔ contains_point truthy t i = none) := by
  unfold contains_point lookup
  cases h : value t i <;> simp [h]

/-- Witness for the amended C8: a stored zero is falsy, so the containment
test answers False although the point query succeeds. -/
theorem contains_truthiness_witness :
    contains_point intTruthy [(⟨0, 10, 0⟩ : Ivl Int)] 5 = some false :=
  (contains_truthiness intTruthy [(⟨0, 10, 0⟩ : Ivl Int)] 5).2.1 0 (by decide)

/-- C9: the snapshot is the stored triples in sorted order (in particular
nondecreasing in the (begin, end) pair), it is a permutation of the stored
triples, and restoring from the snapshot yields an index whose point query
answers agree with the original everywhere, whatever the insertion order
was. -/
theorem snapshot_roundtrip (t : Tree α) :
    (getstate t).Sorted ivLE ∧
    (getstate t).Pairwise
      (fun a b => a.lo < b.lo ∨ (a.lo = b.lo ∧ a.hi ≤ b.hi)) ∧
    (getstate t).Perm t ∧
    (∀ p : Int, value (setstate (getstate t)) p = value t p) := by
  refine ⟨List.sorted_insertionSort ivLE t, ?_, List.perm_insertionSort ivLE t,
    ?_⟩
  · refine List.Pairwise.imp ?_ (List.sorted_insertionSort ivLE t)
    intro a b hab
    unfold ivLE at hab
    rcases hab with h | ⟨h, h2⟩
    · exact Or.inl h
    · refine Or.inr ⟨h, ?_⟩
      rcases h2 with h2 | ⟨h2, _⟩
      · exact le_of_lt h2
      · exact le_of_eq h2
  · intro p
    exact value_perm (List.perm_insertionSort ivLE t) p

/-- C5: a range-overlap query with a (begin, end) key unwraps a single hit:
when exactly one stored interval overlaps the window, both overlap_content
and lookup answer its payload bare, not wrapped in a sequence; when two or
more overlap, the answer is the sequence of the payloads of the overlapping
intervals arranged in nondecreasing order of interval start. -/
theorem range_unwrap (t : Tree α) (b e : Int) :
    (∀ iv, overlapFilter t b e = [iv] →
      overlap_content t b e = Sum.inl iv.data ∧
      lookup t (LKey.pair b e) = some (LRes.val iv.data)) ∧
    (2 ≤ (overlapFilter t b e).length →
      ∃ hs : Tree α, hs.Perm (overlapFilter t b e) ∧
        hs.Pairwise (fun a c => a.lo ≤ c.lo) ∧
        overlap_content t b e = Sum.inr (hs.map Ivl.data) ∧
        lookup t (LKey.pair b e) = some (LRes.seq (hs.map Ivl.data))) := by
  constructor
  · intro iv h
    have h1 : overlap_content t b e = Sum.inl iv.data := by
      unfold overlap_content
      rw [h, sort_singleton]
    refine ⟨h1, ?_⟩
    rw [lookup_pair, h1]
  · intro hlen
    have hperm := List.perm_insertionSort ivLE (overlapFilter t b e)
    have hlen' : 2 ≤ (List.insertionSort ivLE (overlapFilter t b e)).length := by
      rw [hperm.length_eq]
      exact hlen
    have hoc : overlap_content t b e =
        Sum.inr ((List.insertionSort ivLE (overlapFilter t b e)).map
          Ivl.data) := by
      unfold overlap_content
      rcases hhs : List.insertionSort ivLE (overlapFilter t b e)
        with _ | ⟨a, _ | ⟨c, l⟩⟩
      · rfl
      · rw [hhs] at hperm
        have hl := hperm.length_eq
        simp only [List.length_cons, List.length_nil] at hl
        omega
      · rfl
    refine ⟨List.insertionSort ivLE (overlapFilter t b e), hperm, ?_, hoc, ?_⟩
    · refine List.Pairwise.imp ?_
        (List.sorted_insertionSort ivLE (overlapFilter t b e))
      intro a c hac
      unfold ivLE at hac
      rcases hac with h | ⟨h, _⟩
      · exact le_of_lt h
      · exact le_of_eq h
    · rw [lookup_pair, hoc]

/-- Witness for C5: a window overlapping exactly one of two stored
intervals answers the bare payload. -/
theorem range_unwrap_witness :
    overlap_content [(⟨0, 3, 1⟩ : Ivl Int), ⟨5, 8, 2⟩] 1 2 = Sum.inl 1 ∧
    lookup [(⟨0, 3, 1⟩ : Ivl Int), ⟨5, 8, 2⟩] (LKey.pair 1 2) =
      some (LRes.val 1) :=
  (range_unwrap [(⟨0, 3, 1⟩ : Ivl Int), ⟨5, 8, 2⟩] 1 2).1 ⟨0, 3, 1⟩ (by decide)

/-- Counterexample to C2: painting 0 to 9 with step 3 (three sub-windows by
the count of the spec) and only two values does not fail: the zip silently
truncates, the operation returns a tree, and the first two sub-windows have
been painted, so the index is not unchanged either. -/
theorem stepped_short_values_succeed :
    configure_stepped ([] : Tree Int) (some 0) (some 9) 3 [10, 20] =
      some [⟨3, 6, 20⟩, ⟨0, 3, 10⟩] ∧
    value [(⟨3, 6, 20⟩ : Ivl Int), ⟨0, 3, 10⟩] 0 = some 10 := by decide

/-- C2 amended: a stepped paint with a positive step never fails on a short
value sequence: it returns successfully, the zip truncates the pairing to
the shorter of the window list and the value list, and every point of a
sub-window whose index is at or beyond the number of supplied values keeps
its previous answer. -/
theorem stepped_truncates (t : Tree α) (hd : Disj t) (s e st : Int)
    (hst : 1 ≤ st) (vs : List α) :
    configure_stepped t (some s) (some e) st vs =
      some (paintList t ((stepped_windows s e st).zip vs)) ∧
    (stepped_windows s e st).zip vs =
      (stepped_windows s e st).zip
        (vs.take (stepped_windows s e st).length) ∧
    (∀ (k : Nat) (w : Int × Int), (stepped_windows s e st)[k]? = some w →
      vs.length ≤ k → ∀ p : Int, w.1 ≤ p → p < w.2 →
        value (paintList t ((stepped_windows s e st).zip vs)) p =
          value t p) := by
  have hwe : stepped_windows s e st = winds (pyRange s e st) :=
    winds_eq (pyRange s e st)
  have hg : List.Chain' (· < ·) (pyRange s e st) := pyRange_chain hst
  refine ⟨?_, zip_take_len _ vs, ?_⟩
  · show (if 0 < st then
        some (paintList t ((stepped_windows s e st).zip vs))
      else none) = some (paintList t ((stepped_windows s e st).zip vs))
    rw [if_pos (by omega)]
  · intro k w hkw hk p hp1 hp2
    rw [hwe] at hkw ⊢
    obtain ⟨hklen, hwk⟩ := List.getElem?_eq_some_iff.mp hkw
    apply paintList_frame
    · exact hd
    · rintro ⟨w1, w2⟩ hw'
      exact le_of_lt (winds_lt hg w1 (List.of_mem_zip hw').1)
    · rintro ⟨w1, w2⟩ hw'
      obtain ⟨⟨j, hj⟩, hget⟩ := List.mem_iff_get.mp hw'
      have hjlen : j < (winds (pyRange s e st)).length ∧ j < vs.length := by
        rw [List.length_zip] at hj
        omega
      have hw1 : (winds (pyRange s e st))[j] = w1 := by
        have := hget
        rw [List.get_eq_getElem, List.getElem_zip] at this
        exact congrArg Prod.fst this
      have hjk : w1.2 ≤ w.1 := by
        have hpw := List.pairwise_iff_get.mp (winds_pairwise hg)
          ⟨j, hjlen.1⟩ ⟨k, hklen⟩ (by show j < k; omega)
        rw [List.get_eq_getElem, List.get_eq_getElem, hw1, hwk] at hpw
        exact hpw
      exact Or.inr (le_trans hjk hp1)

/-- Witness for the amended C2: two sub-windows but one value; the point 4
of the unpainted second sub-window keeps its old (absent) answer. -/
theorem stepped_truncates_witness :
    value (paintList ([] : Tree Int) ((stepped_windows 0 9 3).zip [10])) 4 =
      value ([] : Tree Int) 4 :=
  (stepped_truncates ([] : Tree Int) (by decide) 0 9 3 (by decide) [10]).2.2
    1 (3, 6) (by decide) (by decide) 4 (by decide) (by decide)

/-- Counterexample to C3: painting 0 to 9 with step 3 and three values
paints only the two windows (0, 3) and (3, 6); the point 7, inside the
claimed third sub-window reaching stop, is left uncovered. -/
theorem stepped_last_window_gap :
    configure_stepped ([] : Tree Int) (some 0) (some 9) 3 [10, 20, 30] =
      some [⟨3, 6, 20⟩, ⟨0, 3, 10⟩] ∧
    value [(⟨3, 6, 20⟩ : Ivl Int), ⟨0, 3, 10⟩] 7 = none := by decide

/-- C3 amended: with a positive step and enough values, the stepped paint
forms its sub-windows between consecutive points of
range(start, stop, step) only, so the i-th value covers the i-th sub-window
and every point from start up to the LAST grid point is covered by the
value of its sub-window; the points from the last grid point up to stop are
not painted at all (the last grid point lies strictly below stop), and the
index is unchanged there. -/
theorem stepped_partition_grid (t : Tree α) (hd : Disj t) (s e st : Int)
    (hst : 1 ≤ st) (vs : List α)
    (hlen : (stepped_windows s e st).length ≤ vs.length) (t' : Tree α)
    (hconf : configure_stepped t (some s) (some e) st vs = some t') :
    (∀ (i : Nat) (w : Int × Int), (stepped_windows s e st)[i]? = some w →
      ∀ v, vs[i]? = some v → ∀ p : Int, w.1 ≤ p → p < w.2 →
        value t' p = some v) ∧
    (∀ p : Int, p < s ∨ (pyRange s e st).getLastD s ≤ p →
      value t' p = value t p) ∧
    (s < e → (pyRange s e st).getLastD s < e) := by
  have hwe : stepped_windows s e st = winds (pyRange s e st) :=
    winds_eq (pyRange s e st)
  have hg : List.Chain' (· < ·) (pyRange s e st) := pyRange_chain hst
  have ht' : t' = paintList t ((winds (pyRange s e st)).zip vs) := by
    have hc : configure_stepped t (some s) (some e) st vs =
        some (paintList t ((stepped_windows s e st).zip vs)) := by
      show (if 0 < st then
          some (paintList t ((stepped_windows s e st).zip vs))
        else none) = some (paintList t ((stepped_windows s e st).zip vs))
      rw [if_pos (by omega)]
    rw [hc] at hconf
    rw [← Option.some.inj hconf, hwe]
  subst ht'
  refine ⟨?_, ?_, fun hse => pyRange_getLastD_lt hst hse⟩
  · intro i w hiw v hiv p hp1 hp2
    rw [hwe] at hiw
    obtain ⟨hiW, hwi⟩ := List.getElem?_eq_some_iff.mp hiw
    obtain ⟨hiv', hvi⟩ := List.getElem?_eq_some_iff.mp hiv
    have hiW' : i < ((winds (pyRange s e st)).zip vs).length := by
      rw [List.length_zip]
      omega
    have hvalid : ∀ w' ∈ (winds (pyRange s e st)).zip vs,
        w'.1.1 ≤ w'.1.2 := by
      rintro ⟨w1, w2⟩ hw'
      exact le_of_lt (winds_lt hg w1 (List.of_mem_zip hw').1)
    have hW : (winds (pyRange s e st)).zip vs =
        ((winds (pyRange s e st)).zip vs).take i ++ (w, v) ::
          ((winds (pyRange s e st)).zip vs).drop (i + 1) := by
      conv_lhs =>
        rw [← List.take_append_drop i ((winds (pyRange s e st)).zip vs)]
      rw [List.drop_eq_getElem_cons hiW', List.getElem_zip, hwi, hvi]
    have hPW : ((winds (pyRange s e st)).zip vs).Pairwise
        (fun x y => x.1.2 ≤ y.1.1) := pairwise_zip_left (winds_pairwise hg)
    rw [hW] at hPW
    have hdrop := (List.pairwise_cons.mp (List.pairwise_append.mp hPW).2.1).1
    rw [hW, paintList_append]
    show value (paintList
      (set_interval (paintList t (((winds (pyRange s e st)).zip vs).take i))
        w.1 w.2 v)
      (((winds (pyRange s e st)).zip vs).drop (i + 1))) p = some v
    rw [paintList_frame _ _ p ?_ ?_ ?_]
    · exact value_set_interval_inside v hp1 hp2
    · refine set_interval_disj (paintList_disj _ t hd ?_) ?_ v
      · intro w' hw'
        exact hvalid w' (List.mem_of_mem_take hw')
      · exact le_of_lt (winds_lt hg w (hwi ▸ List.getElem_mem hiW))
    · intro w' hw'
      exact hvalid w' (List.mem_of_mem_drop hw')
    · intro w' hw'
      exact Or.inl (lt_of_lt_of_le hp2 (hdrop w' hw'))
  · intro p hp
    apply paintList_frame
    · exact hd
    · rintro ⟨w1, w2⟩ hw'
      exact le_of_lt (winds_lt hg w1 (List.of_mem_zip hw').1)
    · rintro ⟨w1, w2⟩ hw'
      have hmem : w1 ∈ winds (pyRange s e st) := (List.of_mem_zip hw').1
      rcases hp with hp | hp
      · left
        rcases pyRange_head s e st with hnil | hhead
        · rw [hnil] at hmem
          exact absurd hmem (List.not_mem_nil w1)
        · obtain ⟨rest, hrest⟩ : ∃ rest, pyRange s e st = s :: rest := by
            rcases hg' : pyRange s e st with _ | ⟨a, rest⟩
            · rw [hg'] at hhead
              simp at hhead
            · rw [hg'] at hhead
              simp at hhead
              exact ⟨rest, by rw [hhead]⟩
          rw [hrest] at hmem hg
          exact lt_of_lt_of_le hp (winds_lo_ge hg w1 hmem)
      · right
        rcases hl : (pyRange s e st).getLast? with _ | z
        · rw [List.getLast?_eq_none_iff] at hl
          rw [hl] at hmem
          exact absurd hmem (List.not_mem_nil w1)
        · have h2 := winds_hi_le hg hl w1 hmem
          rw [List.getLastD_eq_getLast?, hl, Option.getD_some] at hp
          exact le_trans h2 hp

/-- Witness for the amended C3: painting 0 to 9 with step 3 and three
values; the second sub-window (3, 6) answers the second value at 4, and the
point 7 beyond the last grid point 6 keeps its old (absent) answer. -/
theorem stepped_partition_grid_witness :
    value [(⟨3, 6, 20⟩ : Ivl Int), ⟨0, 3, 10⟩] 4 = some 20 ∧
    value [(⟨3, 6, 20⟩ : Ivl Int), ⟨0, 3, 10⟩] 7 =
      value ([] : Tree Int) 7 := by
  have h := stepped_partition_grid ([] : Tree Int) (by decide) 0 9 3
    (by decide) [10, 20, 30] (by decide) [⟨3, 6, 20⟩, ⟨0, 3, 10⟩] (by decide)
  exact ⟨h.1 1 (3, 6) (by decide) 20 (by decide) 4 (by decide) (by decide),
    h.2.1 7 (by decide)⟩

end ContextConfig
